import Mathlib

/-!
Verification of the sapso TSP metaheuristic suite (Rust sources under src/).

The Rust code is shallowly embedded: f64 coordinate arithmetic is idealized
as exact rational arithmetic, machine integers (u64, usize) as Nat, and
fallible operations (slice indexing that can panic) as Option.  Randomness
(thread_rng draws) is modelled by explicit oracle arguments: a theorem
quantified over all oracle values covers every realizable random outcome,
and a concrete oracle value picks out one realizable trace.
-/

namespace Sapso

/-- A city is a 2D coordinate pair (source: tsplib.rs, type City = (f64, f64);
f64 idealized as an exact rational). -/
abbrev City := ℚ × ℚ

/-- Rounded square root of a nonnegative rational: the specification of
(q.sqrt()).round() from euclidean_distance (tsplib.rs lines 13-19).
For q at least 0 the real number round (sqrt q) equals floor (sqrt q + 1/2),
and n = floor (sqrt q + 1/2) is characterized by (2n-1)^2 <= 4q < (2n+1)^2;
the value (Nat.sqrt (floor (4q)) + 1) / 2 satisfies exactly that bracket,
so it agrees with round of the real square root. -/
def rsqrt (q : ℚ) : ℕ :=
  (Nat.sqrt (Int.toNat ⌊4 * q⌋) + 1) / 2

/-- Linear-search integer square root, kernel-reducible (Nat.sqrt itself
is defined by well-founded recursion, which concrete witnesses cannot
evaluate); sqrtLinear_eq_sqrt below shows it equals Nat.sqrt. -/
def sqrtGo : ℕ → ℕ → ℕ → ℕ
  | _, 0, acc => acc
  | m, f + 1, acc => if (acc + 1) * (acc + 1) ≤ m then sqrtGo m f (acc + 1) else acc

def sqrtLinear (m : ℕ) : ℕ := sqrtGo m m 0

theorem sqrtGo_spec : ∀ (f acc m : ℕ), acc * acc ≤ m → m < (acc + f + 1) * (acc + f + 1) →
    sqrtGo m f acc * sqrtGo m f acc ≤ m ∧ m < (sqrtGo m f acc + 1) * (sqrtGo m f acc + 1) := by
  intro f
  induction f with
  | zero =>
    intro acc m h1 h2
    exact ⟨h1, by simpa using h2⟩
  | succ f ih =>
    intro acc m h1 h2
    have hstep : sqrtGo m (f + 1) acc =
        if (acc + 1) * (acc + 1) ≤ m then sqrtGo m f (acc + 1) else acc := rfl
    by_cases h : (acc + 1) * (acc + 1) ≤ m
    · rw [hstep, if_pos h]
      refine ih (acc + 1) m h ?_
      have e : acc + 1 + f + 1 = acc + (f + 1) + 1 := by omega
      rw [e]
      exact h2
    · rw [hstep, if_neg h]
      exact ⟨h1, by omega⟩

theorem sqrtLinear_spec (m : ℕ) :
    sqrtLinear m * sqrtLinear m ≤ m ∧ m < (sqrtLinear m + 1) * (sqrtLinear m + 1) := by
  refine sqrtGo_spec m 0 m (by simp) ?_
  have h1 : 0 < m + 1 := by omega
  have h2 : m + 1 ≤ (m + 1) * (m + 1) := Nat.le_mul_of_pos_left (m + 1) h1
  have e : 0 + m + 1 = m + 1 := by omega
  rw [e]
  omega

theorem sqrtLinear_eq_sqrt (m : ℕ) : sqrtLinear m = Nat.sqrt m :=
  Nat.eq_sqrt.mpr (sqrtLinear_spec m)

/-- Embedding of euclidean_distance (tsplib.rs lines 13-19): the rounded
Euclidean distance between two cities, as a natural number (u64).  The
rational arithmetic is carried out on numerators and denominators with
integer operations so that the kernel can evaluate concrete instances;
euclidean_distance_eq_rsqrt below shows this equals the direct
transliteration rsqrt ((a.1 - b.1)^2 + (a.2 - b.2)^2). -/
def euclidean_distance (a b : City) : ℕ :=
  let n1 := a.1.num * (b.1.den : ℤ) - b.1.num * (a.1.den : ℤ)
  let n2 := a.2.num * (b.2.den : ℤ) - b.2.num * (a.2.den : ℤ)
  let e1 := ((a.2.den * b.2.den : ℕ) : ℤ)
  let e2 := ((a.1.den * b.1.den : ℕ) : ℤ)
  (sqrtLinear (Int.toNat
    ((4 * (n1 ^ 2 * e1 ^ 2 + n2 ^ 2 * e2 ^ 2)) /
      ((((a.1.den * b.1.den) ^ 2 * (a.2.den * b.2.den) ^ 2 : ℕ)) : ℤ))) + 1) / 2

theorem euclidean_distance_eq_rsqrt (a b : City) :
    euclidean_distance a b = rsqrt ((a.1 - b.1) ^ 2 + (a.2 - b.2) ^ 2) := by
  rw [euclidean_distance, rsqrt, sqrtLinear_eq_sqrt]
  congr 3
  have hfrac : (4 * ((a.1 - b.1) ^ 2 + (a.2 - b.2) ^ 2) : ℚ) =
      ((4 * ((a.1.num * (b.1.den : ℤ) - b.1.num * (a.1.den : ℤ)) ^ 2 *
          ((a.2.den * b.2.den : ℕ) : ℤ) ^ 2 +
        (a.2.num * (b.2.den : ℤ) - b.2.num * (a.2.den : ℤ)) ^ 2 *
          ((a.1.den * b.1.den : ℕ) : ℤ) ^ 2) : ℤ) : ℚ) /
      (((a.1.den * b.1.den) ^ 2 * (a.2.den * b.2.den) ^ 2 : ℕ) : ℚ) := by
    set na := a.1.num with hna
    set da := a.1.den with hda
    set nb := b.1.num with hnb
    set db := b.1.den with hdb
    set nc := a.2.num with hnc
    set dc := a.2.den with hdc
    set nd := b.2.num with hnd
    set dd := b.2.den with hdd
    have h1 : (a.1 : ℚ) = (na : ℚ) / ((da : ℕ) : ℚ) := by
      rw [hna, hda]; exact (Rat.num_div_den a.1).symm
    have h2 : (b.1 : ℚ) = (nb : ℚ) / ((db : ℕ) : ℚ) := by
      rw [hnb, hdb]; exact (Rat.num_div_den b.1).symm
    have h3 : (a.2 : ℚ) = (nc : ℚ) / ((dc : ℕ) : ℚ) := by
      rw [hnc, hdc]; exact (Rat.num_div_den a.2).symm
    have h4 : (b.2 : ℚ) = (nd : ℚ) / ((dd : ℕ) : ℚ) := by
      rw [hnd, hdd]; exact (Rat.num_div_den b.2).symm
    have e1 : ((da : ℕ) : ℚ) ≠ 0 := Nat.cast_ne_zero.mpr (hda ▸ a.1.den_nz)
    have e2 : ((db : ℕ) : ℚ) ≠ 0 := Nat.cast_ne_zero.mpr (hdb ▸ b.1.den_nz)
    have e3 : ((dc : ℕ) : ℚ) ≠ 0 := Nat.cast_ne_zero.mpr (hdc ▸ a.2.den_nz)
    have e4 : ((dd : ℕ) : ℚ) ≠ 0 := Nat.cast_ne_zero.mpr (hdd ▸ b.2.den_nz)
    rw [h1, h2, h3, h4]
    push_cast
    field_simp
    ring
  rw [hfrac, Rat.floor_intCast_div_natCast]

theorem euclidean_distance_symm (a b : City) :
    euclidean_distance a b = euclidean_distance b a := by
  rw [euclidean_distance_eq_rsqrt, euclidean_distance_eq_rsqrt, rsqrt, rsqrt]
  have e : ((a.1 - b.1) ^ 2 + (a.2 - b.2) ^ 2 : ℚ) =
      (b.1 - a.1) ^ 2 + (b.2 - a.2) ^ 2 := by ring
  rw [e]

/-- Sum of the distances of consecutive city pairs: the loop
for i in 1..cities.len() of Route::calculate_distance (tsplib.rs 44-50). -/
def pathDistance : List City → ℕ
  | [] => 0
  | [_] => 0
  | a :: b :: rest => euclidean_distance a b + pathDistance (b :: rest)

/-- Embedding of Route::calculate_distance (tsplib.rs lines 44-50): the
wrap-around edge from the last city to the first, plus the consecutive
edges.  The source indexes cities[len - 1] and so panics on an empty
slice; the [] case here is junk (0) and every theorem using it assumes a
nonempty list. -/
def calculate_distance : List City → ℕ
  | [] => 0
  | c :: rest => euclidean_distance (rest.getLastD c) c + pathDistance (c :: rest)

/-- The edge weight from the last element of l to x (0 when l is empty);
helper for reasoning about pathDistance of an extended path. -/
def lastEdge (l : List City) (x : City) : ℕ :=
  match l.getLast? with
  | none => 0
  | some z => euclidean_distance z x

theorem pathDistance_append_last :
    ∀ (l : List City) (x : City), pathDistance (l ++ [x]) = pathDistance l + lastEdge l x
  | [], x => by simp [pathDistance, lastEdge]
  | [a], x => by simp [pathDistance, lastEdge]
  | a :: b :: t, x => by
    have ih := pathDistance_append_last (b :: t) x
    have e1 : (a :: b :: t) ++ [x] = a :: ((b :: t) ++ [x]) := by simp
    have e2 : (b :: t) ++ [x] = b :: (t ++ [x]) := by simp
    have e3 : pathDistance (a :: b :: (t ++ [x])) =
        euclidean_distance a b + pathDistance (b :: (t ++ [x])) := rfl
    rw [e1, e2, e3, ← e2, ih]
    have e4 : lastEdge (a :: b :: t) x = lastEdge (b :: t) x := by
      simp [lastEdge, List.getLast?_cons_cons]
    rw [e4]
    have e5 : pathDistance (a :: b :: t) =
        euclidean_distance a b + pathDistance (b :: t) := rfl
    rw [e5]
    omega

theorem pathDistance_reverse (l : List City) :
    pathDistance l.reverse = pathDistance l := by
  induction l with
  | nil => rfl
  | cons a t ih =>
    cases t with
    | nil => rfl
    | cons b t' =>
      have hrev : (a :: b :: t').reverse = (b :: t').reverse ++ [a] := by
        simp
      rw [hrev, pathDistance_append_last, ih]
      have hle : lastEdge ((b :: t').reverse) a = euclidean_distance b a := by
        simp [lastEdge, List.getLast?_reverse]
      rw [hle]
      have e : pathDistance (a :: b :: t') =
          euclidean_distance a b + pathDistance (b :: t') := rfl
      rw [e, euclidean_distance_symm]
      omega

theorem calculate_distance_eq_head_last (l : List City) (h : l ≠ []) :
    calculate_distance l =
      euclidean_distance (l.getLast?.getD (0, 0)) (l.head?.getD (0, 0)) + pathDistance l := by
  obtain ⟨c, rest, rfl⟩ : ∃ c rest, l = c :: rest := List.exists_cons_of_ne_nil h
  rw [calculate_distance, List.getLast?_cons, List.head?_cons]
  simp [List.getLastD_eq_getLast?]

/-- C9: the cyclic tour distance is invariant under reversing the order of
the cities, because the wrap-around edge is included and the pairwise
distance is symmetric. -/
theorem claim_C9_distance_reverse (l : List City) (h : l ≠ []) :
    calculate_distance l.reverse = calculate_distance l := by
  have hrev : l.reverse ≠ [] := by
    simpa using h
  rw [calculate_distance_eq_head_last l.reverse hrev, calculate_distance_eq_head_last l h,
    pathDistance_reverse, List.getLast?_reverse, List.head?_reverse, euclidean_distance_symm]

/-- Witness for C9 at a concrete nonempty tour. -/
theorem claim_C9_witness :
    ([(0, 0), (3, 4), (3, 0)] : List City) ≠ [] ∧
      calculate_distance ([(0, 0), (3, 4), (3, 0)] : List City).reverse =
        calculate_distance ([(0, 0), (3, 4), (3, 0)] : List City) :=
  ⟨by decide, claim_C9_distance_reverse [(0, 0), (3, 4), (3, 0)] (by decide)⟩

/-- Swap of two list positions: the embedding of Vec::swap(i, j).
Out-of-range indices leave the list unchanged (the source panics there;
every use below is in range). -/
def listSwap {α : Type} [Inhabited α] (l : List α) (i j : ℕ) : List α :=
  (l.set i (l.getD j default)).set j (l.getD i default)

/-- One iteration of the loop of PSO::get_swap_sequence (pso.rs 211-225):
at index i, if the working route differs from the target there, the first
position j holding the target value is swapped into place and (i, j) is
recorded.  The source's if-let on the position scan is rendered as a
membership test (the scan returns Some exactly when the value occurs, and
then returns the first such index, which is List.indexOf). -/
def gssStep (toR : List ℕ) (st : List ℕ × List (ℕ × ℕ)) (i : ℕ) : List ℕ × List (ℕ × ℕ) :=
  if st.1.getD i 0 ≠ toR.getD i 0 then
    if toR.getD i 0 ∈ st.1 then
      (listSwap st.1 i (st.1.indexOf (toR.getD i 0)),
        st.2 ++ [(i, st.1.indexOf (toR.getD i 0))])
    else st
  else st

/-- The working route and the recorded swaps after the full index loop of
PSO::get_swap_sequence. -/
def gssRun (fr toR : List ℕ) : List ℕ × List (ℕ × ℕ) :=
  (List.range fr.length).foldl (gssStep toR) (fr, [])

/-- Embedding of PSO::get_swap_sequence (pso.rs 211-225): only the
recorded swap list is returned by the source. -/
def get_swap_sequence (fr toR : List ℕ) : List (ℕ × ℕ) :=
  (gssRun fr toR).2

/-- Embedding of PSO::apply_velocity (pso.rs 228-234). -/
def apply_velocity (route : List ℕ) (velocity : List (ℕ × ℕ)) : List ℕ :=
  velocity.foldl (fun r p => listSwap r p.1 p.2) route

theorem listSwap_length {α : Type} [Inhabited α] (l : List α) (i j : ℕ) :
    (listSwap l i j).length = l.length := by
  simp [listSwap]

theorem listSwap_perm (l : List ℕ) {i j : ℕ} (hi : i < l.length) (hj : j < l.length) :
    (listSwap l i j).Perm l := by
  have hdef : (default : ℕ) = 0 := rfl
  have hgi : l.getD i 0 = l[i] := List.getD_eq_getElem l 0 hi
  have hgj : l.getD j 0 = l[j] := List.getD_eq_getElem l 0 hj
  rw [List.perm_iff_count]
  intro x
  have hj1 : j < (l.set i (l.getD j 0)).length := by simpa using hj
  have hstep1 : (l.set i (l.getD j 0))[j] = l[j] := by
    rcases eq_or_ne i j with rfl | hij
    · rw [List.getElem_set_self, hgj]
    · exact List.getElem_set_ne hij hj1
  simp only [listSwap, hdef]
  rw [List.count_set _ _ _ _ hj1, List.count_set _ _ _ _ hi, hstep1, hgi, hgj]
  have hple : (if (l[i] == x) = true then 1 else 0) ≤ List.count x l := by
    by_cases h : l[i] = x
    · simp only [h, beq_self_eq_true, if_true]
      exact List.count_pos_iff.mpr (h ▸ List.getElem_mem hi)
    · simp [h]
  by_cases h1 : l[i] = x <;> by_cases h2 : l[j] = x <;>
    simp only [h1, h2, beq_self_eq_true, if_true, beq_iff_eq, if_false] at * <;> omega

theorem listSwap_getD_ne {α : Type} [Inhabited α] (l : List α) (i j k : ℕ) (d : α)
    (hki : k ≠ i) (hkj : k ≠ j) : (listSwap l i j).getD k d = l.getD k d := by
  by_cases hk : k < l.length
  · have hk' : k < (listSwap l i j).length := by rwa [listSwap_length]
    rw [List.getD_eq_getElem _ _ hk', List.getD_eq_getElem _ _ hk]
    simp only [listSwap]
    rw [List.getElem_set_ne hkj.symm, List.getElem_set_ne hki.symm]
  · have h1 : (listSwap l i j).length ≤ k := by rw [listSwap_length]; omega
    have h2 : l.length ≤ k := by omega
    rw [List.getD_eq_default _ _ h1, List.getD_eq_default _ _ h2]

theorem listSwap_getD_left (l : List ℕ) {i j : ℕ} (hij : i ≠ j)
    (hi : i < l.length) (hj : j < l.length) : (listSwap l i j).getD i 0 = l.getD j 0 := by
  have hdef : (default : ℕ) = 0 := rfl
  have hi' : i < (listSwap l i j).length := by rwa [listSwap_length]
  rw [List.getD_eq_getElem _ _ hi', List.getD_eq_getElem _ _ hj]
  simp only [listSwap, hdef]
  rw [List.getElem_set_ne (Ne.symm hij), List.getElem_set_self]
  exact List.getD_eq_getElem l 0 hj

/-- The loop invariant of get_swap_sequence after the first i indices:
the working route stays a permutation of the target, agrees with it on the
first i positions, is exactly the original route with the recorded swaps
applied, and at most i swaps have been recorded. -/
def GssInv (fr toR : List ℕ) (i : ℕ) (st : List ℕ × List (ℕ × ℕ)) : Prop :=
  st.1.Perm toR ∧ (∀ k, k < i → st.1.getD k 0 = toR.getD k 0) ∧
    apply_velocity fr st.2 = st.1 ∧ st.2.length ≤ i

theorem gssStep_inv (fr toR : List ℕ) (hnd : toR.Nodup) (i : ℕ)
    (st : List ℕ × List (ℕ × ℕ)) (hi : i < toR.length) (h : GssInv fr toR i st) :
    GssInv fr toR (i + 1) (gssStep toR st i) := by
  obtain ⟨hperm, hpre, happ, hlen⟩ := h
  have hslen : st.1.length = toR.length := hperm.length_eq
  by_cases hne : st.1.getD i 0 = toR.getD i 0
  · rw [gssStep, if_neg (by simpa using hne)]
    refine ⟨hperm, ?_, happ, by omega⟩
    intro k hk
    rcases Nat.lt_or_ge k i with hk' | hk'
    · exact hpre k hk'
    · have : k = i := by omega
      rw [this]; exact hne
  · have hti : toR.getD i 0 = toR[i] := List.getD_eq_getElem toR 0 hi
    have hmem : toR.getD i 0 ∈ st.1 := hperm.mem_iff.mpr (hti ▸ List.getElem_mem hi)
    rw [gssStep, if_pos hne, if_pos hmem]
    set j := st.1.indexOf (toR.getD i 0) with hj
    have hjlt : j < st.1.length := List.indexOf_lt_length.mpr hmem
    have hilt : i < st.1.length := by omega
    have hstj : st.1.getD j 0 = toR.getD i 0 := by
      rw [List.getD_eq_getElem st.1 0 hjlt]
      exact List.getElem_indexOf hjlt
    have hij : i ≠ j := by
      intro hf
      apply hne
      have h5 : st.1.getD i 0 = st.1.getD j 0 := by rw [hf]
      rw [h5, hstj]
    have hjgt : ∀ k, k < i → k ≠ j := by
      intro k hk hf
      have h1 : st.1.getD k 0 = toR.getD k 0 := hpre k hk
      have h2 : st.1.getD k 0 = toR.getD i 0 := by rw [hf]; exact hstj
      have h3 : toR.getD k 0 = toR.getD i 0 := by rw [← h1, h2]
      have hklt : k < toR.length := by omega
      rw [List.getD_eq_getElem toR 0 hklt, List.getD_eq_getElem toR 0 hi] at h3
      have : k = i := (List.Nodup.getElem_inj_iff hnd).mp h3
      omega
    refine ⟨(listSwap_perm st.1 hilt hjlt).trans hperm, ?_, ?_, by simp; omega⟩
    · intro k hk
      rcases Nat.lt_or_ge k i with hk' | hk'
      · show (listSwap st.1 i j).getD k 0 = toR.getD k 0
        rw [listSwap_getD_ne st.1 i j k 0 (by omega) (hjgt k hk')]
        exact hpre k hk'
      · have hki : k = i := by omega
        show (listSwap st.1 i j).getD k 0 = toR.getD k 0
        rw [hki, listSwap_getD_left st.1 hij hilt hjlt, hstj]
    · show apply_velocity fr (st.2 ++ [(i, j)]) = listSwap st.1 i j
      rw [apply_velocity, List.foldl_append]
      have h4 : List.foldl (fun r p => listSwap r p.1 p.2) fr st.2 = st.1 := happ
      rw [h4]
      rfl

theorem gssRun_inv (fr toR : List ℕ) (hnd : toR.Nodup) (hperm : fr.Perm toR) :
    ∀ i, i ≤ toR.length → GssInv fr toR i ((List.range i).foldl (gssStep toR) (fr, [])) := by
  intro i
  induction i with
  | zero => exact fun _ => ⟨hperm, fun k hk => absurd hk (by omega), rfl, by simp⟩
  | succ m ih =>
    intro hm
    rw [List.range_succ, List.foldl_append]
    exact gssStep_inv fr toR hnd m _ (by omega) (ih (by omega))

theorem eq_of_perm_of_agree_init (l₁ l₂ : List ℕ) (h : l₁.Perm l₂)
    (hpre : ∀ k, k < l₁.length - 1 → l₁.getD k 0 = l₂.getD k 0) : l₁ = l₂ := by
  have hlen : l₁.length = l₂.length := h.length_eq
  rcases Nat.eq_zero_or_pos l₁.length with hz | hpos
  · have h1 : l₁ = [] := List.length_eq_zero.mp hz
    have h2 : l₂ = [] := List.length_eq_zero.mp (by omega)
    rw [h1, h2]
  · set n := l₁.length with hn
    have htake : l₁.take (n - 1) = l₂.take (n - 1) := by
      apply List.ext_getElem (by simp only [List.length_take]; omega)
      intro k h1 h2
      have hk : k < n - 1 := by simp only [List.length_take] at h1; omega
      rw [List.getElem_take, List.getElem_take, ← List.getD_eq_getElem l₁ 0,
        ← List.getD_eq_getElem l₂ 0]
      exact hpre k hk
    obtain ⟨a, ha⟩ : ∃ a, l₁.drop (n - 1) = [a] :=
      List.length_eq_one.mp (by rw [List.length_drop]; omega)
    obtain ⟨b, hb⟩ : ∃ b, l₂.drop (n - 1) = [b] :=
      List.length_eq_one.mp (by rw [List.length_drop]; omega)
    have hd : l₁ = l₁.take (n - 1) ++ [a] := by rw [← ha, List.take_append_drop]
    have hd2 : l₂ = l₂.take (n - 1) ++ [b] := by rw [← hb, List.take_append_drop]
    have hab : a = b := by
      have hp : (l₁.take (n - 1) ++ [a]).Perm (l₁.take (n - 1) ++ [b]) := by
        rw [← hd, htake, ← hd2]; exact h
      have := (List.perm_append_left_iff (l₁.take (n - 1))).mp hp
      simpa using this
    rw [hd, hd2, htake, hab]

/-- C2: for permutations fr and toR of the same distinct city indices,
applying the swap sequence returned by get_swap_sequence fr toR to fr via
apply_velocity yields exactly toR, and at most length - 1 swaps are
recorded. -/
theorem claim_C2_swap_sequence (fr toR : List ℕ) (hnd : fr.Nodup) (hperm : fr.Perm toR) :
    apply_velocity fr (get_swap_sequence fr toR) = toR ∧
      (get_swap_sequence fr toR).length ≤ fr.length - 1 := by
  have hndto : toR.Nodup := hperm.nodup_iff.mp hnd
  have hlen : fr.length = toR.length := hperm.length_eq
  rcases Nat.eq_zero_or_pos fr.length with hz | hpos
  · have h1 : fr = [] := List.length_eq_zero.mp hz
    have h2 : toR = [] := List.length_eq_zero.mp (by omega)
    subst h1; subst h2
    exact ⟨rfl, by simp [get_swap_sequence, gssRun, apply_velocity]⟩
  · obtain ⟨m, hm⟩ : ∃ m, fr.length = m + 1 := ⟨fr.length - 1, by omega⟩
    have hinv := gssRun_inv fr toR hndto hperm m (by omega)
    set S := (List.range m).foldl (gssStep toR) (fr, []) with hS
    obtain ⟨hperm', hpre, happ, hlens⟩ := hinv
    have hfix : S.1 = toR := by
      apply eq_of_perm_of_agree_init S.1 toR hperm'
      intro k hk
      apply hpre
      have := hperm'.length_eq
      omega
    have hrun : gssRun fr toR = S := by
      rw [gssRun, hm, List.range_succ, List.foldl_append, ← hS]
      show gssStep toR S m = S
      rw [gssStep, if_neg (by rw [hfix]; simp)]
    constructor
    · rw [get_swap_sequence, hrun, happ, hfix]
    · rw [get_swap_sequence, hrun]
      omega

/-- Witness for C2 at concrete permutations of 0, 1, 2. -/
theorem claim_C2_witness :
    apply_velocity [0, 1, 2] (get_swap_sequence [0, 1, 2] [2, 0, 1]) = [2, 0, 1] ∧
      (get_swap_sequence [0, 1, 2] [2, 0, 1]).length ≤ [0, 1, 2].length - 1 :=
  claim_C2_swap_sequence [0, 1, 2] [2, 0, 1] (by decide) (by decide)

/-- The zip-fill loop of Chromosome::crossover (ga.rs 95-98): write the
cities cs into the positions ps of the partial offspring, pairwise, and
stop when either list runs out (zip semantics). -/
def fillPositions : List (Option ℕ) → List ℕ → List ℕ → List (Option ℕ)
  | l, [], _ => l
  | l, _ :: _, [] => l
  | l, p :: ps, c :: cs => fillPositions (l.set p (some c)) ps cs

/-- The final unwrap of Chromosome::crossover (ga.rs 100): map over the
offspring unwrapping every slot; a None slot is a panic, modelled as
Option.none for the whole result. -/
def unwrapAll : List (Option ℕ) → Option (List ℕ)
  | [] => some []
  | none :: _ => none
  | some a :: t => (unwrapAll t).map (fun r => a :: r)

/-- Embedding of Chromosome::crossover (ga.rs 58-102), with the ordered
cut pair (left, right), left < right, passed in place of the source's
random retry draw.  The source copies p1 over the half-open range
(left..right), filters p2 rotated to start at right through the used set,
and fills positions (right..ln) then (0..left). -/
def ga_crossover (p1 p2 : List ℕ) (left right : ℕ) : Option (List ℕ) :=
  let ln := p1.length
  let seg := (p1.drop left).take (right - left)
  let base := fillPositions (List.replicate ln none) (List.range' left (right - left)) seg
  let remaining := ((p2.drop right) ++ (p2.take right)).filter (fun c => !(seg.contains c))
  unwrapAll (fillPositions base (List.range' right (ln - right) ++ List.range left) remaining)

/-- Embedding of PSO::crossover (pso.rs 154-177), with the cut pair
(s, e), s at most e, passed in place of the source's random draws.  The
source copies the closed segment r1 at (s..=e), filters r2 through it, and
concatenates remaining-prefix, segment, remaining-suffix. -/
def pso_crossover (r1 r2 : List ℕ) (s e : ℕ) : List ℕ :=
  let seg := (r1.drop s).take (e - s + 1)
  let remaining := r2.filter (fun c => !(seg.contains c))
  remaining.take s ++ seg ++ remaining.drop s

theorem fillPositions_nil_vals : ∀ (l : List (Option ℕ)) (ps : List ℕ),
    fillPositions l ps [] = l
  | _, [] => rfl
  | _, _ :: _ => rfl

theorem fillPositions_length : ∀ (ps cs : List ℕ) (l : List (Option ℕ)),
    (fillPositions l ps cs).length = l.length
  | [], _, l => rfl
  | _ :: _, [], l => rfl
  | p :: ps, c :: cs, l => by
    rw [fillPositions, fillPositions_length ps cs]
    simp

theorem fillPositions_append (ps qs : List ℕ) : ∀ (l : List (Option ℕ)) (cs : List ℕ),
    fillPositions l (ps ++ qs) cs =
      fillPositions (fillPositions l ps (cs.take ps.length)) qs (cs.drop ps.length) := by
  induction ps with
  | nil => intro l cs; simp [fillPositions]
  | cons p ps ih =>
    intro l cs
    cases cs with
    | nil =>
      rw [List.cons_append, fillPositions_nil_vals, List.drop_nil, List.take_nil,
        fillPositions_nil_vals, fillPositions_nil_vals]
    | cons c cs' =>
      rw [List.cons_append]
      show fillPositions (l.set p (some c)) (ps ++ qs) cs' = _
      rw [ih (l.set p (some c)) cs']
      rfl

theorem fillPositions_splice : ∀ (k s : ℕ) (l : List (Option ℕ)) (cs : List ℕ),
    cs.length = k → s + k ≤ l.length →
    fillPositions l (List.range' s k) cs = l.take s ++ cs.map some ++ l.drop (s + k) := by
  intro k
  induction k with
  | zero =>
    intro s l cs hcs _
    rw [List.length_eq_zero.mp hcs]
    show l = l.take s ++ [] ++ l.drop (s + 0)
    simp
  | succ k ih =>
    intro s l cs hcs hsk
    obtain ⟨c, cs', rfl⟩ : ∃ c cs', cs = c :: cs' := by
      cases cs with
      | nil => simp at hcs
      | cons c cs' => exact ⟨c, cs', rfl⟩
    have hs : s < l.length := by omega
    rw [List.range'_succ]
    show fillPositions (l.set s (some c)) (List.range' (s + 1) k) cs' = _
    have hset : l.set s (some c) = l.take s ++ some c :: l.drop (s + 1) := by
      rw [List.set_eq_take_append_cons_drop, if_pos hs]
    have hlen' : (l.set s (some c)).length = l.length := by simp
    rw [ih (s + 1) (l.set s (some c)) cs' (by simpa using hcs) (by omega)]
    have htk : (l.set s (some c)).take (s + 1) = l.take s ++ [some c] := by
      rw [hset, List.take_append_eq_append_take]
      have h1 : (l.take s).length = s := by simp; omega
      rw [List.take_of_length_le (by omega), h1]
      norm_num
    have hdr : (l.set s (some c)).drop (s + 1 + k) = l.drop (s + (k + 1)) := by
      rw [hset, List.drop_append_eq_append_drop]
      have h1 : (l.take s).length = s := by simp; omega
      rw [List.drop_eq_nil_of_le (by omega), h1]
      have h2 : s + 1 + k - s = k + 1 := by omega
      rw [h2]
      show [] ++ (l.drop (s + 1)).drop k = _
      rw [List.nil_append, List.drop_drop]
      congr 1
      omega
    rw [htk, hdr]
    simp [List.append_assoc]

theorem unwrapAll_map_some : ∀ (l : List ℕ), unwrapAll (l.map some) = some l
  | [] => rfl
  | a :: t => by rw [List.map_cons, unwrapAll, unwrapAll_map_some t]; rfl

/-- Count bookkeeping shared by the two crossovers: a nodup segment drawn
from base, plus any reordering rot of base filtered through the segment,
together count every element exactly as base does. -/
theorem count_filter_seg (base rot seg : List ℕ) (hnd : base.Nodup) (hrot : rot.Perm base)
    (hsub : seg ⊆ base) (hsegnd : seg.Nodup) (x : ℕ) :
    List.count x (rot.filter (fun c => !(seg.contains c))) + List.count x seg =
      List.count x base := by
  by_cases hx : x ∈ seg
  · have h0 : List.count x (rot.filter (fun c => !(seg.contains c))) = 0 := by
      rw [List.count_eq_zero]
      simp [hx]
    rw [h0, List.count_eq_one_of_mem hsegnd hx, List.count_eq_one_of_mem hnd (hsub hx)]
  · have h0 : List.count x (rot.filter (fun c => !(seg.contains c))) = List.count x rot := by
      rw [List.count_filter (by simp [hx])]
    rw [h0, List.count_eq_zero_of_not_mem hx, hrot.count_eq]
    omega

theorem length_filter_seg (base rot seg : List ℕ) (hnd : base.Nodup) (hrot : rot.Perm base)
    (hsub : seg ⊆ base) (hsegnd : seg.Nodup) :
    (rot.filter (fun c => !(seg.contains c))).length = base.length - seg.length := by
  have hp := List.filter_append_perm (fun c => !(seg.contains c)) rot
  have hseg : (rot.filter (fun c => !(!(seg.contains c)))).Perm seg := by
    rw [List.perm_iff_count]
    intro x
    by_cases hx : x ∈ seg
    · have h0 : List.count x (rot.filter (fun c => !(!(seg.contains c)))) =
          List.count x rot := by
        rw [List.count_filter (by simp [hx])]
      rw [h0, hrot.count_eq, List.count_eq_one_of_mem hnd (hsub hx),
        List.count_eq_one_of_mem hsegnd hx]
    · have h0 : List.count x (rot.filter (fun c => !(!(seg.contains c)))) = 0 := by
        rw [List.count_eq_zero]
        simp [hx]
      rw [h0, List.count_eq_zero_of_not_mem hx]
  have h1 := hp.length_eq
  have h2 := hseg.length_eq
  have h3 := hrot.length_eq
  rw [List.length_append] at h1
  omega

/-- The half-open segment p1 at (left..right) used by ga_crossover. -/
theorem seg_sublist (p : List ℕ) (a b : ℕ) : ((p.drop a).take b).Sublist p :=
  (List.take_sublist _ _).trans (List.drop_sublist _ _)

/-- The offspring list that Chromosome::crossover assembles, in closed
form: the tail of the filtered rotation fills positions 0..left, the
parent-1 segment sits at left..right, and the head of the filtered
rotation fills right..ln (proved equal to the embedding below). -/
def gaOffspring (p1 p2 : List ℕ) (left right : ℕ) : List ℕ :=
  let seg := (p1.drop left).take (right - left)
  let remaining := ((p2.drop right) ++ (p2.take right)).filter (fun c => !(seg.contains c))
  remaining.drop (p1.length - right) ++ seg ++ remaining.take (p1.length - right)

theorem ga_crossover_eq (p1 p2 : List ℕ) (left right : ℕ)
    (hnd : p1.Nodup) (hperm : p1.Perm p2) (hlr : left < right) (hrl : right ≤ p1.length) :
    ga_crossover p1 p2 left right = some (gaOffspring p1 p2 left right) := by
  set ln := p1.length with hln
  set seg := (p1.drop left).take (right - left) with hseg
  set rot := (p2.drop right) ++ (p2.take right) with hrot
  set remaining := rot.filter (fun c => !(seg.contains c)) with hrem
  have hsegl : seg.length = right - left := by
    rw [hseg, List.length_take, List.length_drop]
    omega
  have hrotp : rot.Perm p1 := by
    rw [hrot]
    exact (List.perm_append_comm.trans (by rw [List.take_append_drop])).trans hperm.symm
  have hsegsub : seg ⊆ p1 := (seg_sublist p1 left (right - left)).subset
  have hsegnd : seg.Nodup := (seg_sublist p1 left (right - left)).nodup hnd
  have hreml : remaining.length = ln - (right - left) := by
    rw [hrem, length_filter_seg p1 rot seg hnd hrotp hsegsub hsegnd, hsegl]
  have hbase : fillPositions (List.replicate ln none) (List.range' left (right - left)) seg =
      List.replicate left none ++ seg.map some ++ List.replicate (ln - right) none := by
    rw [fillPositions_splice (right - left) left _ seg hsegl (by simp; omega),
      List.take_replicate, List.drop_replicate]
    congr 2
    · congr 1; omega
    · congr 1; omega
  rw [ga_crossover]
  show unwrapAll (fillPositions _ (List.range' right (ln - right) ++ List.range left) remaining) = _
  rw [hbase, fillPositions_append, List.length_range']
  have hbl : (List.replicate left none ++ List.map some seg ++
      List.replicate (ln - right) none : List (Option ℕ)).length = ln := by
    simp [hsegl]
    omega
  have hfill1 : fillPositions
      (List.replicate left none ++ List.map some seg ++ List.replicate (ln - right) none)
      (List.range' right (ln - right)) (remaining.take (ln - right)) =
      (List.replicate left none ++ List.map some seg) ++
        (remaining.take (ln - right)).map some := by
    rw [fillPositions_splice (ln - right) right _ _ (by rw [List.length_take]; omega)
      (by omega)]
    have h1 : (List.replicate left none ++ List.map some seg ++
        List.replicate (ln - right) none : List (Option ℕ)).take right =
        List.replicate left none ++ List.map some seg := by
      rw [List.append_assoc, List.take_append_eq_append_take]
      have h2 : (List.replicate left (none : Option ℕ)).length = left := by simp
      rw [List.take_of_length_le (by omega), h2]
      congr 1
      rw [List.take_append_eq_append_take,
        List.take_of_length_le (by simp only [List.length_map, hsegl]; omega)]
      have h3 : right - left - (List.map some seg).length = 0 := by simp [hsegl]
      rw [h3]
      simp
    have h4 : (List.replicate left none ++ List.map some seg ++
        List.replicate (ln - right) none : List (Option ℕ)).drop (right + (ln - right)) = [] :=
      List.drop_eq_nil_of_le (by rw [hbl]; omega)
    rw [h1, h4, List.append_nil]
  rw [hfill1]
  have hfill2 : fillPositions
      ((List.replicate left none ++ List.map some seg) ++ (remaining.take (ln - right)).map some)
      (List.range left) (remaining.drop (ln - right)) =
      ((remaining.drop (ln - right)).map some ++ List.map some seg) ++
        (remaining.take (ln - right)).map some := by
    rw [List.range_eq_range']
    rw [fillPositions_splice left 0 _ _ (by rw [List.length_drop, hreml]; omega)
      (by simp only [List.length_append, List.length_map, List.length_replicate,
        List.length_take, hreml, hsegl]; omega)]
    rw [List.take_zero, List.nil_append]
    have h5 : ((List.replicate left none ++ List.map some seg) ++
        (remaining.take (ln - right)).map some : List (Option ℕ)).drop (0 + left) =
        List.map some seg ++ (remaining.take (ln - right)).map some := by
      rw [List.append_assoc, List.drop_append_eq_append_drop]
      have h2 : (List.replicate left (none : Option ℕ)).length = left := by simp
      rw [List.drop_eq_nil_of_le (by simp), h2]
      simp
    rw [h5, ← List.append_assoc]
  rw [hfill2, ← List.map_append, ← List.map_append, unwrapAll_map_some]
  rfl

/-- Permutation property of the closed-form GA offspring. -/
theorem gaOffspring_perm (p1 p2 : List ℕ) (left right : ℕ) (hnd : p1.Nodup)
    (hperm : p1.Perm p2) : (gaOffspring p1 p2 left right).Perm p1 := by
  simp only [gaOffspring]
  set seg := (p1.drop left).take (right - left) with hseg
  set rot := (p2.drop right) ++ (p2.take right) with hrot
  set remaining := rot.filter (fun c => !(seg.contains c)) with hrem
  have hrotp : rot.Perm p1 := by
    rw [hrot]
    exact (List.perm_append_comm.trans (by rw [List.take_append_drop])).trans hperm.symm
  have hsegsub : seg ⊆ p1 := (seg_sublist p1 left (right - left)).subset
  have hsegnd : seg.Nodup := (seg_sublist p1 left (right - left)).nodup hnd
  rw [List.perm_iff_count]
  intro x
  rw [List.count_append, List.count_append]
  have h1 : List.count x (remaining.take (p1.length - right)) +
      List.count x (remaining.drop (p1.length - right)) = List.count x remaining := by
    rw [← List.count_append, List.take_append_drop]
  have h2 := count_filter_seg p1 rot seg hnd hrotp hsegsub hsegnd x
  rw [← hrem] at h2
  omega

/-- Permutation property of the PSO crossover output. -/
theorem pso_crossover_perm (r1 r2 : List ℕ) (s e : ℕ) (hnd : r1.Nodup)
    (hperm : r1.Perm r2) : (pso_crossover r1 r2 s e).Perm r1 := by
  simp only [pso_crossover]
  set seg := (r1.drop s).take (e - s + 1) with hsg
  set remaining := r2.filter (fun c => !(seg.contains c)) with hrm
  have hsegsub : seg ⊆ r1 := (seg_sublist r1 s (e - s + 1)).subset
  have hsegnd : seg.Nodup := (seg_sublist r1 s (e - s + 1)).nodup hnd
  rw [List.perm_iff_count]
  intro x
  rw [List.count_append, List.count_append]
  have h1 : List.count x (remaining.take s) + List.count x (remaining.drop s) =
      List.count x remaining := by
    rw [← List.count_append, List.take_append_drop]
  have h2 := count_filter_seg r1 r2 seg hnd hperm.symm hsegsub hsegnd x
  rw [← hrm] at h2
  omega

/-- C3: on parents that are permutations of the same distinct city set and
any distinct ordered cut pair, order crossover returns a route of the same
length containing every city exactly once: the GA variant (half-open cuts,
wrap fill) succeeds with a permutation of the parent, and the PSO variant
(closed segment) likewise returns a permutation. -/
theorem claim_C3_crossover_permutation (p1 p2 : List ℕ) (left right : ℕ)
    (hnd : p1.Nodup) (hperm : p1.Perm p2) (hlr : left < right) (hrl : right ≤ p1.length) :
    (∃ c, ga_crossover p1 p2 left right = some c ∧ c.length = p1.length ∧ c.Perm p1) ∧
      (∀ s e, s ≤ e → e < p1.length →
        (pso_crossover p1 p2 s e).length = p1.length ∧ (pso_crossover p1 p2 s e).Perm p1) := by
  constructor
  · refine ⟨gaOffspring p1 p2 left right,
      ga_crossover_eq p1 p2 left right hnd hperm hlr hrl, ?_, ?_⟩
    · exact (gaOffspring_perm p1 p2 left right hnd hperm).length_eq
    · exact gaOffspring_perm p1 p2 left right hnd hperm
  · intro s e _ _
    exact ⟨(pso_crossover_perm p1 p2 s e hnd hperm).length_eq,
      pso_crossover_perm p1 p2 s e hnd hperm⟩

/-- Witness for C3 at concrete parents and cuts. -/
theorem claim_C3_witness :
    (∃ c, ga_crossover [0, 1, 2, 3] [3, 2, 1, 0] 1 3 = some c ∧
        c.length = ([0, 1, 2, 3] : List ℕ).length ∧ c.Perm [0, 1, 2, 3]) ∧
      (∀ s e, s ≤ e → e < ([0, 1, 2, 3] : List ℕ).length →
        (pso_crossover [0, 1, 2, 3] [3, 2, 1, 0] s e).length = ([0, 1, 2, 3] : List ℕ).length ∧
          (pso_crossover [0, 1, 2, 3] [3, 2, 1, 0] s e).Perm [0, 1, 2, 3]) :=
  claim_C3_crossover_permutation [0, 1, 2, 3] [3, 2, 1, 0] 1 3
    (by decide) (by decide) (by decide) (by decide)

/-- A GA individual (ga.rs Chromosome): a route of city indices with its
cached distance. -/
structure Chromosome where
  route : List ℕ
  distance : ℕ
deriving DecidableEq

/-- The ascending comparison of population.sort_by_key on the distance key
(ga.rs 209, 235); List.mergeSort models the source's stable sort. -/
def chromoLE (a b : Chromosome) : Bool := a.distance ≤ b.distance

theorem chromoLE_trans (a b c : Chromosome) (h1 : chromoLE a b = true)
    (h2 : chromoLE b c = true) : chromoLE a c = true := by
  simp only [chromoLE, decide_eq_true_eq] at *
  omega

theorem chromoLE_total (a b : Chromosome) : (chromoLE a b || chromoLE b a) = true := by
  simp only [chromoLE]
  by_cases h : a.distance ≤ b.distance
  · simp [h]
  · simp [h]
    omega

/-- One generation of GeneticAlgorithm::solve (ga.rs 208-248): sort the
population ascending by distance, keep the slice population[0..elite_size]
unchanged (this slice panics when elite_size exceeds the population
length, modelled as none), and fill the remaining slots up to
population_size with offspring.  The selection / crossover / mutation
pipeline is stochastic, so the k-th offspring pushed by the fill loop is
abstracted as the oracle value offspring k; a theorem quantified over all
oracles covers every realizable outcome.  The result is the population
after the re-sort at ga.rs 235, the state at the history push. -/
def gaGeneration (pop : List Chromosome) (eliteSize popSize : ℕ)
    (offspring : ℕ → Chromosome) : Option (List Chromosome) :=
  let sorted := pop.mergeSort chromoLE
  if eliteSize ≤ sorted.length then
    let elite := sorted.take eliteSize
    let next := elite ++ (List.range (popSize - elite.length)).map offspring
    some (next.mergeSort chromoLE)
  else none

/-- The generation loop of GeneticAlgorithm::solve with one offspring
oracle per generation, accumulating the history entries (the distance of
population[0] after the re-sort, pushed at ga.rs 245 as the best route of
the generation). -/
def gaRun : List (ℕ → Chromosome) → List Chromosome → ℕ → ℕ →
    Option (List Chromosome × List ℕ)
  | [], pop, _, _ => some (pop, [])
  | o :: os, pop, es, ps =>
    match gaGeneration pop es ps o with
    | none => none
    | some next =>
      match gaRun os next es ps with
      | none => none
      | some (fin, hist) => some (fin, (next.headD ⟨[], 0⟩).distance :: hist)

theorem gaGeneration_some (pop : List Chromosome) (es ps : ℕ) (off : ℕ → Chromosome)
    (h : es ≤ pop.length) :
    gaGeneration pop es ps off =
      some ((((pop.mergeSort chromoLE).take es) ++
        (List.range (ps - es)).map off).mergeSort chromoLE) := by
  simp only [gaGeneration]
  rw [if_pos (by rw [List.length_mergeSort]; exact h)]
  have hl : ((pop.mergeSort chromoLE).take es).length = es := by
    rw [List.length_take, List.length_mergeSort]
    omega
  rw [hl]

/-- The head of the mergeSort output is a lower bound for every member of
the list being sorted. -/
theorem mergeSort_headD_le (l : List Chromosome) (x : Chromosome) (hx : x ∈ l)
    (d : Chromosome) : ((l.mergeSort chromoLE).headD d).distance ≤ x.distance := by
  have hx' : x ∈ l.mergeSort chromoLE := (List.mergeSort_perm l chromoLE).mem_iff.mpr hx
  obtain ⟨y, t, hyt⟩ : ∃ y t, l.mergeSort chromoLE = y :: t := by
    cases hm : l.mergeSort chromoLE with
    | nil => rw [hm] at hx'; simp at hx'
    | cons y t => exact ⟨y, t, rfl⟩
  have hsorted := List.sorted_mergeSort chromoLE_trans chromoLE_total l
  rw [hyt] at hsorted hx'
  rw [hyt]
  rcases List.mem_cons.mp hx' with rfl | hxt
  · simp
  · have := (List.pairwise_cons.mp hsorted).1 x hxt
    simp only [chromoLE, decide_eq_true_eq] at this
    simpa using this

/-- C6 counterexample: with population_size 1 (a one-chromosome
population) and elite_size 2, the elite slice population[0..2] is out of
range and the generation panics (none) instead of reproducing the
population. -/
theorem claim_C6_counterexample :
    gaGeneration [⟨[0], 0⟩] 2 1 (fun _ => ⟨[0], 0⟩) = none := by
  simp only [gaGeneration, List.length_mergeSort]
  norm_num

/-- C6 as amended: when elite_size equals population_size (and the
population has that size), the generation succeeds and the next population
is the current one up to order; the panic of the strictly-greater case is
the counterexample above. -/
theorem claim_C6_elite_full_generation (pop : List Chromosome) (es ps : ℕ)
    (off : ℕ → Chromosome) (hes : es = pop.length) (hps : ps = pop.length) :
    ∃ next, gaGeneration pop es ps off = some next ∧ next.Perm pop ∧
      next.length = pop.length := by
  rw [gaGeneration_some pop es ps off (by omega)]
  have h1 : (pop.mergeSort chromoLE).take es = pop.mergeSort chromoLE :=
    List.take_of_length_le (by rw [List.length_mergeSort]; omega)
  have h2 : ps - es = 0 := by omega
  rw [h1, h2]
  simp only [List.range_zero, List.map_nil, List.append_nil]
  refine ⟨_, rfl, ?_, ?_⟩
  · exact (List.mergeSort_perm _ chromoLE).trans (List.mergeSort_perm pop chromoLE)
  · rw [List.length_mergeSort, List.length_mergeSort]

/-- Witness for the amended C6 at a concrete two-chromosome population. -/
theorem claim_C6_witness :
    ∃ next, gaGeneration [⟨[0, 1], 5⟩, ⟨[1, 0], 5⟩] 2 2 (fun _ => ⟨[], 0⟩) = some next ∧
      next.Perm [⟨[0, 1], 5⟩, ⟨[1, 0], 5⟩] ∧
      next.length = ([⟨[0, 1], 5⟩, ⟨[1, 0], 5⟩] : List Chromosome).length :=
  claim_C6_elite_full_generation [⟨[0, 1], 5⟩, ⟨[1, 0], 5⟩] 2 2 (fun _ => ⟨[], 0⟩)
    (by decide) (by decide)

theorem chain'_ge_weaken_head {l : List ℕ} {a b : ℕ}
    (h : List.Chain' (fun x y => y ≤ x) (b :: l)) (hab : b ≤ a) :
    List.Chain' (fun x y => y ≤ x) (a :: l) := by
  cases l with
  | nil => exact List.chain'_singleton a
  | cons c t =>
    rw [List.chain'_cons] at h ⊢
    exact ⟨le_trans h.1 hab, h.2⟩

theorem gaRun_cons_some (o : ℕ → Chromosome) (os : List (ℕ → Chromosome))
    (pop next fin : List Chromosome) (es ps : ℕ) (hist : List ℕ)
    (hg : gaGeneration pop es ps o = some next) (hr : gaRun os next es ps = some (fin, hist)) :
    gaRun (o :: os) pop es ps = some (fin, (next.headD ⟨[], 0⟩).distance :: hist) := by
  simp only [gaRun, hg, hr]

/-- GA history monotonicity: with at least one elite slot, every recorded
generation best is bounded by the previous one, because the previous best
chromosome survives in the elite slice of the next population. -/
theorem gaRun_monotone (os : List (ℕ → Chromosome)) :
    ∀ (pop : List Chromosome) (es ps : ℕ), 1 ≤ es → es ≤ ps → ps = pop.length →
    ∃ fin hist, gaRun os pop es ps = some (fin, hist) ∧
      List.Chain' (fun a b => b ≤ a)
        (((pop.mergeSort chromoLE).headD ⟨[], 0⟩).distance :: hist) := by
  induction os with
  | nil =>
    intro pop es ps _ _ _
    exact ⟨pop, [], rfl, List.chain'_singleton _⟩
  | cons o os ih =>
    intro pop es ps h1 h2 h3
    have hgen := gaGeneration_some pop es ps o (by omega)
    set pre := ((pop.mergeSort chromoLE).take es) ++ (List.range (ps - es)).map o with hpre
    have hnextlen : (pre.mergeSort chromoLE).length = ps := by
      rw [List.length_mergeSort, hpre, List.length_append, List.length_take,
        List.length_mergeSort, List.length_map, List.length_range]
      omega
    obtain ⟨fin, hist, hrec, hchain⟩ := ih (pre.mergeSort chromoLE) es ps h1 h2 (by omega)
    refine ⟨fin, ((pre.mergeSort chromoLE).headD ⟨[], 0⟩).distance :: hist,
      gaRun_cons_some o os pop (pre.mergeSort chromoLE) fin es ps hist hgen hrec, ?_⟩
    obtain ⟨y, t, hyt⟩ : ∃ y t, pop.mergeSort chromoLE = y :: t := by
      cases hm : pop.mergeSort chromoLE with
      | nil =>
        have : (pop.mergeSort chromoLE).length = pop.length := List.length_mergeSort pop
        rw [hm] at this
        simp at this
        omega
      | cons y t => exact ⟨y, t, rfl⟩
    have hbase : ((pop.mergeSort chromoLE).headD ⟨[], 0⟩) = y := by rw [hyt]; rfl
    have hymem : y ∈ pre := by
      rw [hpre, hyt]
      obtain ⟨k, hk⟩ : ∃ k, es = k + 1 := ⟨es - 1, by omega⟩
      rw [hk, List.take_succ_cons]
      exact List.mem_append_left _ (List.mem_cons_self y _)
    have hhead_le : ((pre.mergeSort chromoLE).headD ⟨[], 0⟩).distance ≤ y.distance :=
      mergeSort_headD_le pre y hymem ⟨[], 0⟩
    rw [List.chain'_cons, hbase]
    refine ⟨hhead_le, ?_⟩
    obtain ⟨z, u, hzu⟩ : ∃ z u, pre.mergeSort chromoLE = z :: u := by
      cases hm : pre.mergeSort chromoLE with
      | nil => rw [hm] at hnextlen; simp at hnextlen; omega
      | cons z u => exact ⟨z, u, rfl⟩
    have hzmem : (pre.mergeSort chromoLE).headD ⟨[], 0⟩ ∈ pre.mergeSort chromoLE := by
      rw [hzu]
      exact List.mem_cons_self z u
    have hmm : ((((pre.mergeSort chromoLE).mergeSort chromoLE)).headD ⟨[], 0⟩).distance ≤
        ((pre.mergeSort chromoLE).headD ⟨[], 0⟩).distance :=
      mergeSort_headD_le (pre.mergeSort chromoLE) _ hzmem ⟨[], 0⟩
    exact chain'_ge_weaken_head hchain hmm

/-- A tour with its cached distance (tsplib.rs Route); the cache is always
the calculated distance of the city list, as Route::new establishes. -/
structure Route where
  cities : List City
  distance : ℕ
deriving DecidableEq

/-- Route::new (tsplib.rs 30-34). -/
def Route.new (cities : List City) : Route :=
  ⟨cities, calculate_distance cities⟩

/-- The per-iteration best update of AntColonyOptimization::solve
(aco.rs 195-207): each constructed ant solution replaces the running best
exactly when strictly shorter.  Ant construction is stochastic and the
iteration's solutions are abstracted as an oracle list. -/
def acoIteration (best : Route) (solutions : List Route) : Route :=
  solutions.foldl (fun b s => if s.distance < b.distance then s else b) best

/-- The iteration loop of AntColonyOptimization::solve (aco.rs 195-217):
after each iteration's ants, the running best is pushed onto the
history. -/
def acoHistory : List (List Route) → Route → List Route
  | [], _ => []
  | sols :: rest, best => acoIteration best sols :: acoHistory rest (acoIteration best sols)

theorem acoIteration_le (sols : List Route) :
    ∀ best : Route, (acoIteration best sols).distance ≤ best.distance := by
  induction sols with
  | nil => intro best; exact le_refl _
  | cons s rest ih =>
    intro best
    show (acoIteration (if s.distance < best.distance then s else best) rest).distance ≤ _
    by_cases h : s.distance < best.distance
    · rw [if_pos h]
      exact le_trans (ih _) (by omega)
    · rw [if_neg h]
      exact ih best

theorem acoHistory_chain (solss : List (List Route)) :
    ∀ best : Route,
      List.Chain' (fun a b => b.distance ≤ a.distance) (best :: acoHistory solss best) := by
  induction solss with
  | nil => intro best; exact List.chain'_singleton best
  | cons sols rest ih =>
    intro best
    rw [acoHistory, List.chain'_cons]
    exact ⟨acoIteration_le sols best, ih (acoIteration best sols)⟩

/-- C1 as amended: ACO's history (best-so-far per iteration) is
monotonically non-increasing for every oracle trace, and so is GA's
whenever elite_size is at least 1 (and at most population_size, the
population's size).  SA's history records the per-epoch current route,
which can increase (see the counterexample), and the PSO implementation
in src keeps no history at all. -/
theorem claim_C1_amended (solss : List (List Route)) (best0 : Route)
    (os : List (ℕ → Chromosome)) (pop : List Chromosome) (es ps : ℕ)
    (hes : 1 ≤ es) (hesps : es ≤ ps) (hps : ps = pop.length) :
    List.Chain' (fun a b => b.distance ≤ a.distance) (acoHistory solss best0) ∧
      ∃ fin hist, gaRun os pop es ps = some (fin, hist) ∧
        List.Chain' (fun a b => b ≤ a) hist := by
  constructor
  · exact (acoHistory_chain solss best0).tail
  · obtain ⟨fin, hist, hrun, hchain⟩ := gaRun_monotone os pop es ps hes hesps hps
    exact ⟨fin, hist, hrun, hchain.tail⟩

/-- Witness for the amended C1 at a concrete ACO trace and GA run. -/
theorem claim_C1_witness :
    List.Chain' (fun a b => b.distance ≤ a.distance)
      (acoHistory [[Route.new [(0, 0), (3, 4)]]] (Route.new [(0, 0), (0, 9)])) ∧
      ∃ fin hist,
        gaRun [fun _ => ⟨[0], 7⟩] [⟨[0], 3⟩] 1 1 = some (fin, hist) ∧
          List.Chain' (fun a b => b ≤ a) hist :=
  claim_C1_amended [[Route.new [(0, 0), (3, 4)]]] (Route.new [(0, 0), (0, 9)])
    [fun _ => ⟨[0], 7⟩] [⟨[0], 3⟩] 1 1 (by decide) (by decide) (by decide)

/-- Route::two_opt_move (tsplib.rs 64-75): reverse the closed index range
(min i j ..= max i j) of the city list and recompute the distance. -/
def two_opt_move (r : Route) (i j : ℕ) : Route :=
  Route.new (r.cities.take (min i j) ++
    ((r.cities.drop (min i j)).take (max i j - min i j + 1)).reverse ++
    r.cities.drop (max i j + 1))

/-- The candidate index pairs scanned by AntColonyOptimization::apply_2opt
(aco.rs 84-85): i in 0..n-2, j in i+2..n. -/
def acoPairs (n : ℕ) : List (ℕ × ℕ) :=
  (List.range (n - 2)).flatMap
    (fun i => (List.range' (i + 2) (n - (i + 2))).map (fun j => (i, j)))

/-- One candidate evaluation of the inner loops of apply_2opt (aco.rs
86-91).  Note the source applies the reversal to the original route
argument, never to the current best; the candidate replaces the best
exactly when strictly shorter, setting the improved flag. -/
def acoPassStep (route : Route) (st : Route × Bool) (p : ℕ × ℕ) : Route × Bool :=
  let new_route := two_opt_move route p.1 p.2
  if new_route.distance < st.1.distance then (new_route, true) else st

/-- One full scan over every candidate pair: the body of the
while-improved loop of apply_2opt (aco.rs 82-94), with the improved flag
reset to false on entry. -/
def acoPass (route : Route) (best : Route) : Route × Bool :=
  (acoPairs route.cities.length).foldl (acoPassStep route) (best, false)

/-- The while-improved loop of apply_2opt encoded with fuel.  An improving
pass strictly decreases the best distance (acoPass_lt below), so the fuel
best.distance + 1 used by aco_apply_2opt always reaches the loop's exit
condition, and acoLoop_fuel_stable shows additional fuel never changes
the result: this equals the source's unbounded loop. -/
def acoLoop : ℕ → Route → Route → Route
  | 0, _, best => best
  | fuel + 1, route, best =>
    let r := acoPass route best
    if r.2 then acoLoop fuel route r.1 else r.1

/-- Embedding of AntColonyOptimization::apply_2opt (aco.rs 77-96). -/
def aco_apply_2opt (route : Route) : Route :=
  acoLoop (route.distance + 1) route route

theorem acoFold_inv (route : Route) (ps : List (ℕ × ℕ)) :
    ∀ st : Route × Bool,
      (ps.foldl (acoPassStep route) st).1.distance ≤ st.1.distance ∧
        (st.2 = false → (ps.foldl (acoPassStep route) st).2 = true →
          (ps.foldl (acoPassStep route) st).1.distance < st.1.distance) := by
  induction ps with
  | nil =>
    intro st
    refine ⟨le_refl _, ?_⟩
    intro h1 h2
    simp only [List.foldl_nil] at h2
    rw [h1] at h2
    cases h2
  | cons p rest ih =>
    intro st
    rw [List.foldl_cons]
    by_cases h : (two_opt_move route p.1 p.2).distance < st.1.distance
    · have hstep : acoPassStep route st p = (two_opt_move route p.1 p.2, true) := by
        rw [acoPassStep, if_pos h]
      rw [hstep]
      obtain ⟨ha, _⟩ := ih (two_opt_move route p.1 p.2, true)
      exact ⟨le_trans ha (le_of_lt h), fun _ _ => lt_of_le_of_lt ha h⟩
    · have hstep : acoPassStep route st p = st := by
        rw [acoPassStep, if_neg h]
      rw [hstep]
      exact ih st

theorem acoPass_lt (route best : Route) (h : (acoPass route best).2 = true) :
    (acoPass route best).1.distance < best.distance :=
  (acoFold_inv route (acoPairs route.cities.length) (best, false)).2 rfl h

theorem acoLoop_fuel_stable :
    ∀ (fuel : ℕ) (route best : Route), best.distance < fuel →
      acoLoop fuel route best = acoLoop (fuel + 1) route best := by
  intro fuel
  induction fuel with
  | zero =>
    intro route best h
    omega
  | succ f ih =>
    intro route best h
    have e1 : acoLoop (f + 1) route best =
        if (acoPass route best).2 then acoLoop f route (acoPass route best).1
        else (acoPass route best).1 := rfl
    have e2 : acoLoop (f + 1 + 1) route best =
        if (acoPass route best).2 then acoLoop (f + 1) route (acoPass route best).1
        else (acoPass route best).1 := rfl
    rw [e1, e2]
    by_cases hc : (acoPass route best).2 = true
    · rw [if_pos hc, if_pos hc]
      exact ih route (acoPass route best).1 (by have := acoPass_lt route best hc; omega)
    · rw [if_neg hc, if_neg hc]

set_option maxRecDepth 10000 in
/-- C4 (code bug): apply_2opt applies every candidate reversal to the
original route instead of to the running best (aco.rs 86: route, not
best_route), so it returns the best single reversal of its input, which
need not be a 2-opt local optimum.  On this 8-city instance re-running
apply_2opt on its own output strictly improves the distance, contradicting
the claimed idempotence at a local optimum. -/
theorem claim_C4_not_local_optimum :
    (aco_apply_2opt (aco_apply_2opt (Route.new
        [(0, 0), (10, 10), (0, 10), (10, 0), (100, 0), (110, 10), (100, 10), (110, 0)]))).distance <
      (aco_apply_2opt (Route.new
        [(0, 0), (10, 10), (0, 10), (10, 0), (100, 0), (110, 10), (100, 10), (110, 0)])).distance := by
  decide

/-- The distance matrix built by the instance loader (tsplib.rs 184-191):
zero diagonal, rounded Euclidean distance elsewhere (the loader writes
both (i,j) and (j,i), and euclidean_distance is symmetric). -/
def dmOf (cities : List City) (i j : ℕ) : ℕ :=
  if i = j then 0 else euclidean_distance (cities.getD i (0, 0)) (cities.getD j (0, 0))

theorem rsqrt_pos (q : ℚ) (h : 1 / 4 ≤ q) : 1 ≤ rsqrt q := by
  rw [rsqrt]
  have h1 : (1 : ℤ) ≤ ⌊4 * q⌋ := by
    rw [Int.le_floor]
    push_cast
    linarith
  have h2 : 1 ≤ Int.toNat ⌊4 * q⌋ := by omega
  have h3 : 1 ≤ Nat.sqrt (Int.toNat ⌊4 * q⌋) := by
    calc 1 = Nat.sqrt 1 := by rw [Nat.sqrt_one]
    _ ≤ Nat.sqrt (Int.toNat ⌊4 * q⌋) := Nat.sqrt_le_sqrt h2
  omega

/-- C8 counterexample: the two distinct cities (0,0) and (1/5, 1/5) have
rounded distance 0, the loader's matrix entry is 0 (this is the divisor of
the heuristic term 1/distance[current][next] in select_next_city, aco.rs
137), and the full 2-city tour has distance 0 (the divisor of the deposit
term q/route.distance in update_pheromone, aco.rs 165): there is no
distance floor, and both divisions hit a zero divisor. -/
theorem claim_C8_counterexample :
    ((0, 0) : City) ≠ (mkRat 1 5, mkRat 1 5) ∧
      dmOf [(0, 0), (mkRat 1 5, mkRat 1 5)] 0 1 = 0 ∧
      calculate_distance [(0, 0), (mkRat 1 5, mkRat 1 5)] = 0 := by
  decide

/-- C8 as amended: ACO has no distance floor, but on instances whose
distinct cities are pairwise at squared Euclidean distance at least 1/4
(so every rounded distance is at least 1), the divisor
distance_matrix[current][next] of the heuristic term is nonzero for every
distinct pair, and the divisor route.distance of the deposit term is
nonzero for every tour visiting at least two distinct in-range cities. -/
theorem claim_C8_amended (cities : List City)
    (hsep : ∀ i, i < cities.length → ∀ j, j < cities.length → i ≠ j →
      (1 / 4 : ℚ) ≤ ((cities.getD i (0, 0)).1 - (cities.getD j (0, 0)).1) ^ 2 +
        ((cities.getD i (0, 0)).2 - (cities.getD j (0, 0)).2) ^ 2) :
    (∀ i j, i < cities.length → j < cities.length → i ≠ j → dmOf cities i j ≠ 0) ∧
      (∀ p : List ℕ, p.Nodup → 2 ≤ p.length → (∀ k ∈ p, k < cities.length) →
        calculate_distance (p.map (fun k => cities.getD k (0, 0))) ≠ 0) := by
  have hdm : ∀ i j, i < cities.length → j < cities.length → i ≠ j →
      1 ≤ euclidean_distance (cities.getD i (0, 0)) (cities.getD j (0, 0)) := by
    intro i j hi hj hne
    rw [euclidean_distance_eq_rsqrt]
    exact rsqrt_pos _ (hsep i hi j hj hne)
  constructor
  · intro i j hi hj hne
    rw [dmOf, if_neg hne]
    have := hdm i j hi hj hne
    omega
  · intro p hnd hlen hmem
    obtain ⟨k, ks, rfl⟩ : ∃ k ks, p = k :: ks := by
      cases p with
      | nil => simp at hlen
      | cons k ks => exact ⟨k, ks, rfl⟩
    rw [List.map_cons, calculate_distance]
    have hks : ks ≠ [] := by
      intro hf
      rw [hf] at hlen
      simp at hlen
    have hlast : (ks.map (fun k => cities.getD k (0, 0))).getLastD (cities.getD k (0, 0)) =
        cities.getD (ks.getLastD k) (0, 0) := by
      obtain ⟨m, ms, rfl⟩ : ∃ m ms, ks = m :: ms := by
        cases ks with
        | nil => exact absurd rfl hks
        | cons m ms => exact ⟨m, ms, rfl⟩
      rw [List.map_cons, List.getLastD_cons, List.getLastD_cons,
        List.getLastD_eq_getLast?, List.getLastD_eq_getLast?, List.getLast?_map]
      cases hm : (ms.getLast?) with
      | none => simp [List.getLast?_eq_none_iff.mp hm]
      | some z =>
        have hz : z ∈ ms := List.mem_of_mem_getLast? hm
        simp [hm]
    rw [hlast]
    have hlg : ks.getLastD k ∈ ks := by
      obtain ⟨m, ms, rfl⟩ : ∃ m ms, ks = m :: ms := by
        cases ks with
        | nil => exact absurd rfl hks
        | cons m ms => exact ⟨m, ms, rfl⟩
      rw [List.getLastD_cons, List.getLastD_eq_getLast?]
      cases hm : ms.getLast? with
      | none =>
        rw [List.getLast?_eq_none_iff.mp hm]
        simp
      | some z =>
        have hz : z ∈ ms := List.mem_of_mem_getLast? hm
        simp [hm, hz]
    have hkne : ks.getLastD k ≠ k := by
      intro hf
      have : k ∉ ks := (List.nodup_cons.mp hnd).1
      rw [hf] at hlg
      exact this hlg
    have h1 := hdm (ks.getLastD k) k (hmem _ (List.mem_cons_of_mem k hlg))
      (hmem k (List.mem_cons_self k ks)) hkne
    omega

/-- Witness for the amended C8 at a concrete well-separated instance. -/
theorem claim_C8_witness :
    (∀ i j, i < ([(0, 0), (3, 4)] : List City).length →
        j < ([(0, 0), (3, 4)] : List City).length → i ≠ j →
        dmOf [(0, 0), (3, 4)] i j ≠ 0) ∧
      (∀ p : List ℕ, p.Nodup → 2 ≤ p.length →
        (∀ k ∈ p, k < ([(0, 0), (3, 4)] : List City).length) →
        calculate_distance (p.map (fun k => ([(0, 0), (3, 4)] : List City).getD k (0, 0))) ≠ 0) :=
  claim_C8_amended [(0, 0), (3, 4)] (by
    intro i hi j hj hne
    simp only [List.length_cons, List.length_nil] at hi hj
    interval_cases i <;> interval_cases j <;> simp_all <;> norm_num)

/-- First-minimum selection of the min_by in the nearest-neighbor
builders (sa.rs 48-55, ga.rs 42-49, aco.rs 56-63): Rust's min_by returns
the first of equally minimal elements, so the fold replaces only on a
strictly smaller key. -/
def nnSelect (dm : ℕ → ℕ → ℕ) (cur : ℕ) (x : ℕ) (xs : List ℕ) : ℕ :=
  xs.foldl (fun b y => if dm cur y < dm cur b then y else b) x

/-- The unvisited loop of initialize_nearest_neighbor (sa.rs 47-59): pick
the nearest unvisited city, remove it (first occurrence, as
Vec::remove at its position), append to the route.  Fuel n bounds the
loop, which removes one city per step. -/
def nnGo (dm : ℕ → ℕ → ℕ) : ℕ → ℕ → List ℕ → List ℕ → List ℕ
  | 0, _, _, acc => acc.reverse
  | f + 1, cur, unvisited, acc =>
    match unvisited with
    | [] => acc.reverse
    | x :: xs =>
      nnGo dm f (nnSelect dm cur x xs) ((x :: xs).erase (nnSelect dm cur x xs))
        (nnSelect dm cur x xs :: acc)

/-- initialize_nearest_neighbor (sa.rs 39-67) with the random start city
as an oracle: visit the nearest unvisited city until none remain. -/
def nnRoute (dm : ℕ → ℕ → ℕ) (n : ℕ) (start : ℕ) : List ℕ :=
  nnGo dm n start ((List.range n).filter (fun z => z ≠ start)) [start]

/-- SA neighbor moves (sa.rs 82-99): a 2-opt reversal or a position swap.
The source chooses the kind with a temperature-scaled probability and the
indices with uniform draws; both kinds and all index pairs have positive
probability whenever the 2-opt share is strictly between 0 and 1, so the
move is oracle data. -/
inductive SAMove where
  | twoOpt (i j : ℕ)
  | swap (i j : ℕ)
deriving DecidableEq

/-- generate_neighbor (sa.rs 82-99): both branches rebuild the route with
a recomputed distance (two_opt_move, respectively Vec::swap plus
Route::new). -/
def generate_neighbor (r : Route) : SAMove → Route
  | SAMove.twoOpt i j => two_opt_move r i j
  | SAMove.swap i j => Route.new (listSwap r.cities i j)

/-- One Metropolis trial of the moves loop (sa.rs 139-155), on the state
(current_route, best_route).  The source accepts when
acceptance_probability > u for a uniform draw u in [0,1): when the
neighbor is not worse the probability is 1.0, which exceeds every draw;
when it is worse the probability exp(-delta/T) lies strictly between 0
and 1, so either outcome is realizable and the comparison's outcome is
the oracle Bool accept.  On acceptance the best route is replaced exactly
when the accepted neighbor strictly improves on it, and the current route
becomes the neighbor. -/
def saMove (st : Route × Route) (mv : SAMove) (accept : Bool) : Route × Route :=
  let newR := generate_neighbor st.1 mv
  if newR.distance ≤ st.1.distance || accept then
    (newR, if newR.distance < st.2.distance then newR else st.2)
  else st

/-- The moves_per_temp loop of one epoch (sa.rs 139-155). -/
def saEpoch (st : Route × Route) (moves : List (SAMove × Bool)) : Route × Route :=
  moves.foldl (fun s m => saMove s m.1 m.2) st

/-- The adaptive cooling update at the end of an epoch (sa.rs 160-167):
the cooling rate is scaled by 0.95 after an epoch that improved the best
route and by 1.05 otherwise, clamped by .min(0.1).max(0.001), and the
temperature is multiplied by one minus the clamped factor.  Temperatures
are exact rationals (f64 idealized). -/
def coolStep (cooling_rate : ℚ) (improved : Bool) (t : ℚ) : ℚ :=
  t * (1 - max (min (if improved then cooling_rate * (95 / 100)
    else cooling_rate * (105 / 100)) (1 / 10)) (1 / 1000))

/-- The temperature sequence across epochs, for an arbitrary sequence of
per-epoch improved flags. -/
def saTemps (cooling_rate : ℚ) (improved : ℕ → Bool) (t0 : ℚ) : ℕ → ℚ
  | 0 => t0
  | k + 1 => coolStep cooling_rate (improved k) (saTemps cooling_rate improved t0 k)

theorem coolStep_factor_bounds (cr : ℚ) (b : Bool) :
    1 / 1000 ≤ max (min (if b then cr * (95 / 100) else cr * (105 / 100)) (1 / 10)) (1 / 1000) ∧
      max (min (if b then cr * (95 / 100) else cr * (105 / 100)) (1 / 10)) (1 / 1000) ≤ 1 / 10 := by
  constructor
  · exact le_max_right _ _
  · apply max_le
    · exact min_le_right _ _
    · norm_num

/-- C5: the clamped adaptive cooling factor lies in [0.001, 0.1], so each
epoch multiplies a positive temperature by a factor in [0.9, 0.999]: the
temperature strictly decreases, and for every positive final temperature
there is an epoch at which the loop condition fails, so solve terminates. -/
theorem claim_C5_cooling (cr : ℚ) (b : Bool) (improved : ℕ → Bool) (t0 ftemp t : ℚ)
    (ht : 0 < t) (hft : 0 < ftemp) :
    coolStep cr b t < t ∧ ∃ k, saTemps cr improved t0 k ≤ ftemp := by
  obtain ⟨hlo, hhi⟩ := coolStep_factor_bounds cr b
  constructor
  · rw [coolStep]
    have h1 : 1 - max (min (if b then cr * (95 / 100) else cr * (105 / 100)) (1 / 10))
        (1 / 1000) < 1 := by linarith
    calc t * (1 - max (min (if b then cr * (95 / 100) else cr * (105 / 100)) (1 / 10))
        (1 / 1000)) < t * 1 := by
          exact mul_lt_mul_of_pos_left h1 ht
    _ = t := mul_one t
  · rcases le_or_lt t0 ftemp with h0 | h0
    · exact ⟨0, h0⟩
    · have ht0 : 0 < t0 := lt_trans hft h0
      have hbound : ∀ k, 0 ≤ saTemps cr improved t0 k ∧
          saTemps cr improved t0 k ≤ t0 * (999 / 1000) ^ k := by
        intro k
        induction k with
        | zero => exact ⟨le_of_lt ht0, by simp [saTemps]⟩
        | succ m ihm =>
          obtain ⟨hnn, hle⟩ := ihm
          obtain ⟨hlo', hhi'⟩ := coolStep_factor_bounds cr (improved m)
          have hfac0 : (0 : ℚ) ≤ 1 - max (min (if improved m then cr * (95 / 100)
              else cr * (105 / 100)) (1 / 10)) (1 / 1000) := by linarith
          have hfac1 : 1 - max (min (if improved m then cr * (95 / 100)
              else cr * (105 / 100)) (1 / 10)) (1 / 1000) ≤ 999 / 1000 := by linarith
          constructor
          · show 0 ≤ saTemps cr improved t0 m *
              (1 - max (min (if improved m then cr * (95 / 100)
                else cr * (105 / 100)) (1 / 10)) (1 / 1000))
            exact mul_nonneg hnn hfac0
          · show saTemps cr improved t0 m *
              (1 - max (min (if improved m then cr * (95 / 100)
                else cr * (105 / 100)) (1 / 10)) (1 / 1000)) ≤ t0 * (999 / 1000) ^ (m + 1)
            calc saTemps cr improved t0 m *
                (1 - max (min (if improved m then cr * (95 / 100)
                  else cr * (105 / 100)) (1 / 10)) (1 / 1000)) ≤
                (t0 * (999 / 1000) ^ m) * (999 / 1000) := by
                  apply mul_le_mul hle hfac1 hfac0
                  positivity
            _ = t0 * (999 / 1000) ^ (m + 1) := by ring
      obtain ⟨k, hk⟩ := exists_nat_gt (999 * t0 / ftemp)
      refine ⟨k, le_trans (hbound k).2 ?_⟩
      have hb : (1 + 1 / 999 : ℚ) ^ k ≥ 1 + k * (1 / 999) :=
        one_add_mul_le_pow (by norm_num) k
      have he : (1 + 1 / 999 : ℚ) = 1000 / 999 := by norm_num
      rw [he] at hb
      have h2 : t0 / ftemp < (1000 / 999 : ℚ) ^ k := by
        have h3 : t0 / ftemp < 1 + (k : ℚ) * (1 / 999) := by
          rw [div_lt_iff₀ hft] at hk ⊢
          nlinarith
        linarith
      have h4 : t0 < ftemp * (1000 / 999) ^ k := by
        rw [div_lt_iff₀ hft] at h2
        linarith [h2]
      have h5 : t0 * (999 / 1000) ^ k < (ftemp * (1000 / 999) ^ k) * (999 / 1000) ^ k :=
        mul_lt_mul_of_pos_right h4 (by positivity)
      have h6 : (ftemp * (1000 / 999) ^ k) * (999 / 1000) ^ k = ftemp := by
        rw [mul_assoc, ← mul_pow]
        norm_num
      linarith

/-- Witness for C5 at concrete parameters. -/
theorem claim_C5_witness :
    coolStep (3 / 1000) true 2 < 2 ∧
      ∃ k, saTemps (3 / 1000) (fun _ => false) 2 k ≤ mkRat 1 10 :=
  claim_C5_cooling (3 / 1000) true (fun _ => false) 2 (mkRat 1 10) 2
    (by decide) (by decide)

theorem saMove_inv (st : Route × Route) (mv : SAMove) (accept : Bool)
    (h : st.2.distance ≤ st.1.distance) :
    (saMove st mv accept).2.distance ≤ (saMove st mv accept).1.distance := by
  rw [saMove]
  by_cases hacc : ((generate_neighbor st.1 mv).distance ≤ st.1.distance || accept) = true
  · rw [if_pos hacc]
    by_cases himp : (generate_neighbor st.1 mv).distance < st.2.distance
    · rw [if_pos himp]
    · rw [if_neg himp]
      show st.2.distance ≤ (generate_neighbor st.1 mv).distance
      omega
  · rw [if_neg hacc]
    exact h

/-- C10: throughout the Metropolis loop, the best route is never worse
than the current route: the invariant holds after initialization (current
and best are set to the same route, sa.rs 124-125), is preserved by every
accept/reject trial, and the best route is replaced only when an accepted
neighbor strictly improves on it. -/
theorem claim_C10_best_le_current :
    (∀ (st : Route × Route) (mv : SAMove) (accept : Bool),
        st.2.distance ≤ st.1.distance →
        (saMove st mv accept).2.distance ≤ (saMove st mv accept).1.distance) ∧
      (∀ (st : Route × Route) (mv : SAMove) (accept : Bool),
        (saMove st mv accept).2 ≠ st.2 →
        (generate_neighbor st.1 mv).distance < st.2.distance) ∧
      (∀ (moves : List (SAMove × Bool)) (st : Route × Route),
        st.2.distance ≤ st.1.distance →
        (saEpoch st moves).2.distance ≤ (saEpoch st moves).1.distance) := by
  refine ⟨saMove_inv, ?_, ?_⟩
  · intro st mv accept hne
    by_contra hcon
    apply hne
    rw [saMove]
    by_cases hacc : ((generate_neighbor st.1 mv).distance ≤ st.1.distance || accept) = true
    · rw [if_pos hacc, if_neg hcon]
    · rw [if_neg hacc]
  · intro moves
    induction moves with
    | nil => intro st h; exact h
    | cons m rest ih =>
      intro st h
      show (saEpoch (saMove st m.1 m.2) rest).2.distance ≤ _
      exact ih (saMove st m.1 m.2) (saMove_inv st m.1 m.2 h)

/-- Witness for C10 at a concrete state and move list. -/
theorem claim_C10_witness :
    (Route.new [(0, 0), (3, 4)], Route.new [(0, 0), (3, 4)]).2.distance ≤
        (Route.new [(0, 0), (3, 4)], Route.new [(0, 0), (3, 4)]).1.distance ∧
      (saEpoch (Route.new [(0, 0), (3, 4)], Route.new [(0, 0), (3, 4)])
          [(SAMove.swap 0 1, false)]).2.distance ≤
        (saEpoch (Route.new [(0, 0), (3, 4)], Route.new [(0, 0), (3, 4)])
          [(SAMove.swap 0 1, false)]).1.distance :=
  ⟨le_refl _,
    claim_C10_best_le_current.2.2 [(SAMove.swap 0 1, false)]
      (Route.new [(0, 0), (3, 4)], Route.new [(0, 0), (3, 4)]) (le_refl _)⟩

set_option maxRecDepth 4000 in
/-- C1 counterexample: SA pushes the CURRENT route, not the best-so-far,
onto its history (sa.rs 158), one entry per epoch of the while loop.  On
the 4-city square instance, start from the nearest-neighbor tour (start
city 0, sa.rs 124) with moves_per_temp 1, cooling_rate 1, initial
temperature 1 and final temperature 1/2.  The conjuncts show: the second
epoch's single trial, a worsening swap of the first two positions the
Metropolis draw accepts, leaves a current route strictly worse than the
first epoch's, so the history increases between its first two entries;
both epochs are executed, because the loop condition temperature > final
holds at temperature 1 and again after one cooling step (the first epoch
accepts only an identity swap, so it does not improve the best route and
cools by the stuck factor); and the worsening acceptance is realizable,
since exp(-delta/T) = exp(-8/(9/10)) exceeds the uniform draw 0. -/
theorem claim_C1_counterexample :
    (saEpoch (Route.new ((nnRoute (dmOf [(0, 0), (0, 10), (10, 10), (10, 0)]) 4 0).map
          (fun k => ([(0, 0), (0, 10), (10, 10), (10, 0)] : List City).getD k (0, 0))),
        Route.new ((nnRoute (dmOf [(0, 0), (0, 10), (10, 10), (10, 0)]) 4 0).map
          (fun k => ([(0, 0), (0, 10), (10, 10), (10, 0)] : List City).getD k (0, 0))))
        [(SAMove.swap 0 0, false)]).1.distance <
      (saEpoch (saEpoch (Route.new ((nnRoute (dmOf [(0, 0), (0, 10), (10, 10), (10, 0)]) 4 0).map
          (fun k => ([(0, 0), (0, 10), (10, 10), (10, 0)] : List City).getD k (0, 0))),
        Route.new ((nnRoute (dmOf [(0, 0), (0, 10), (10, 10), (10, 0)]) 4 0).map
          (fun k => ([(0, 0), (0, 10), (10, 10), (10, 0)] : List City).getD k (0, 0))))
        [(SAMove.swap 0 0, false)]) [(SAMove.swap 0 1, true)]).1.distance ∧
      ((1 : ℚ) > 1 / 2 ∧ coolStep 1 false 1 > 1 / 2) ∧
      (0 : ℝ) < Real.exp (-(8 / (9 / 10 : ℝ))) :=
  ⟨by decide, ⟨by norm_num, by norm_num [coolStep, min_def, max_def]⟩, Real.exp_pos _⟩

/-- The cut-index retry draw of Chromosome::crossover (ga.rs 61-72): the
first cut i1 is drawn from 0..ln, then i2 is redrawn from 0..ln while it
equals i1.  The loop can terminate precisely when some drawable value
differs from i1; find? returns that value, none when no draw can ever
exit the loop. -/
def cutRetry (ln i1 : ℕ) : Option ℕ :=
  (List.range ln).find? (fun v => v ≠ i1)

/-- C7 (code bug): on a dimension-1 instance every chromosome route has
length 1 (the nearest-neighbor seed route is [0], and random routes are
shuffles of 0..1), the only drawable cut index is 0, and the i2-retry of
crossover can never exit: GA's solve loops forever at dimension 1
whenever the fill loop runs (population_size > elite_size), instead of
no-opping or failing fast. -/
theorem claim_C7_dimension_one_diverges :
    List.range 1 = [0] ∧ cutRetry 1 0 = none ∧
      nnRoute (dmOf [(0, 0)]) 1 0 = [0] := by
  decide

end Sapso
